import Mathlib

/-!
Shallow embedding of the HTML tokenizer of `saba_core`
(`src/saba_core/src/renderer/html/token.rs` and `attribute.rs`).

Strings are modelled as `List Char`, `usize` as `Nat`.  Every fallible
operation of the source (slice indexing, `assert!`, `panic!`, `unwrap`)
is modelled with `Option` / an explicit `fault` result.  The main loop of
`Iterator::next` is modelled with explicit fuel; a termination theorem
shows a concrete fuel bound is always sufficient.
-/

namespace Saba

/-- Rust `char::is_whitespace`: the Unicode White_Space property. -/
def rustIsWhitespace (c : Char) : Bool :=
  decide ((0x9 ≤ c.toNat ∧ c.toNat ≤ 0xd) ∨ c.toNat = 0x20 ∨ c.toNat = 0x85 ∨
    c.toNat = 0xa0 ∨ c.toNat = 0x1680 ∨ (0x2000 ≤ c.toNat ∧ c.toNat ≤ 0x200a) ∨
    c.toNat = 0x2028 ∨ c.toNat = 0x2029 ∨ c.toNat = 0x202f ∨ c.toNat = 0x205f ∨
    c.toNat = 0x3000)

/-- Rust `char::is_ascii_alphabetic`. -/
def isAsciiAlphabetic (c : Char) : Bool :=
  decide ((65 ≤ c.toNat ∧ c.toNat ≤ 90) ∨ (97 ≤ c.toNat ∧ c.toNat ≤ 122))

/-- Rust `char::is_ascii_uppercase`. -/
def isAsciiUppercase (c : Char) : Bool :=
  decide (65 ≤ c.toNat ∧ c.toNat ≤ 90)

/-- Rust `char::to_ascii_lowercase`. -/
def toAsciiLowercase (c : Char) : Char :=
  if isAsciiUppercase c then Char.ofNat (c.toNat + 32) else c

/-- Struct `Attribute` from `attribute.rs`. -/
structure Attribute where
  name : List Char
  value : List Char
deriving DecidableEq, Repr

/-- Constructor `Attribute::new`. -/
def Attribute.new : Attribute := ⟨[], []⟩

/-- Method `Attribute::add_char`. -/
def Attribute.add_char (a : Attribute) (ch : Char) (is_name : Bool) : Attribute :=
  if is_name then { a with name := a.name ++ [ch] }
  else { a with value := a.value ++ [ch] }

/-- Enum `HtmlToken` from `token.rs`. -/
inductive HtmlToken where
  | startTag (tag : List Char) (self_closing : Bool) (attributes : List Attribute)
  | endTag (tag : List Char)
  | char (c : Char)
  | eof
deriving DecidableEq, Repr

/-- Enum `State` from `token.rs`. -/
inductive State where
  | data
  | tagOpen
  | endTagOpen
  | tagName
  | beforeAttributeName
  | attributeName
  | afterAttributeName
  | beforeAttributeValue
  | attributeValueDoubleQuoted
  | attributeValueSingleQuoted
  | attributeValueUnquoted
  | afterAttributeValueQuoted
  | selfClosingStartTag
  | scriptData
  | scriptDataLessThanSign
  | scriptDataEndTagOpen
  | scriptDataEndTagName
  | temporaryBuffer
deriving DecidableEq, Repr

/-- Struct `HtmlTokenizer` from `token.rs`. -/
structure HtmlTokenizer where
  state : State
  pos : Nat
  reconsume : Bool
  latest_token : Option HtmlToken
  input : List Char
  buf : List Char
deriving DecidableEq, Repr

namespace HtmlTokenizer

/-- Constructor `HtmlTokenizer::new`. -/
def new (html : List Char) : HtmlTokenizer :=
  ⟨State.data, 0, false, none, html, []⟩

/-- Method `HtmlTokenizer::is_eof`: `self.pos > self.input.len()`. -/
def is_eof (t : HtmlTokenizer) : Bool :=
  decide (t.input.length < t.pos)

/-- Method `HtmlTokenizer::create_tag`. -/
def create_tag (t : HtmlTokenizer) (start_tag_token : Bool) : HtmlTokenizer :=
  if start_tag_token then
    { t with latest_token := some (HtmlToken.startTag [] false []) }
  else
    { t with latest_token := some (HtmlToken.endTag []) }

/-- Method `HtmlTokenizer::take_latest_token` followed by the `return` of the caller:
the caller has already set the next state on `t`.  `assert!(latest_token.is_some())`
failing is a fault, modelled by the caller via the `none` case. -/
def take_latest_token (t : HtmlTokenizer) : Option (HtmlToken × HtmlTokenizer) :=
  match t.latest_token with
  | none => none
  | some tok => some (tok, { t with latest_token := none })

/-- Method `HtmlTokenizer::append_tag_name`; `none` models the `assert!` / `panic!` faults. -/
def append_tag_name (t : HtmlTokenizer) (c : Char) : Option HtmlTokenizer :=
  match t.latest_token with
  | some (HtmlToken.startTag tag sc attrs) =>
      some { t with latest_token := some (HtmlToken.startTag (tag ++ [c]) sc attrs) }
  | some (HtmlToken.endTag tag) =>
      some { t with latest_token := some (HtmlToken.endTag (tag ++ [c])) }
  | _ => none

/-- Method `HtmlTokenizer::start_new_attribute`; `none` models the `assert!` / `panic!` faults. -/
def start_new_attribute (t : HtmlTokenizer) : Option HtmlTokenizer :=
  match t.latest_token with
  | some (HtmlToken.startTag tag sc attrs) =>
      some { t with latest_token := some (HtmlToken.startTag tag sc (attrs ++ [Attribute.new])) }
  | _ => none

/-- Method `HtmlTokenizer::append_attribute` (`attributes.last_mut()` updated in place);
`none` models the `assert!` / `panic!` faults. -/
def append_attribute (t : HtmlTokenizer) (c : Char) (is_name : Bool) : Option HtmlTokenizer :=
  match t.latest_token with
  | some (HtmlToken.startTag tag sc attrs) =>
      match attrs.getLast? with
      | none => none
      | some a =>
          let tok := HtmlToken.startTag tag sc (attrs.dropLast ++ [a.add_char c is_name])
          some { t with latest_token := some tok }
  | _ => none

/-- Method `HtmlTokenizer::set_self_closing_flag`; `none` models the `assert!` / `panic!` faults. -/
def set_self_closing_flag (t : HtmlTokenizer) : Option HtmlTokenizer :=
  match t.latest_token with
  | some (HtmlToken.startTag tag _ attrs) =>
      some { t with latest_token := some (HtmlToken.startTag tag true attrs) }
  | _ => none

/-- One pull of the loop head:
`reconsume_input` (reads `input[pos - 1]`, clears `reconsume`) when the
`reconsume` flag is set, otherwise `consume_next_input` (reads `input[pos]`,
then `pos += 1`).  `none` models an out-of-bounds index fault. -/
def pull (t : HtmlTokenizer) : Option (Char × HtmlTokenizer) :=
  if t.reconsume then
    if h : 1 ≤ t.pos ∧ t.pos - 1 < t.input.length then
      some (t.input.get ⟨t.pos - 1, h.2⟩, { t with reconsume := false })
    else none
  else
    if h : t.pos < t.input.length then
      some (t.input.get ⟨t.pos, h⟩, { t with pos := t.pos + 1 })
    else none

end HtmlTokenizer

/-- Result of one iteration of the `loop` in `Iterator::next`:
return a token, continue the loop, or hit a fault (panic / failed assert /
out-of-bounds index). -/
inductive StepRes where
  | emit (tok : HtmlToken) (t : HtmlTokenizer)
  | cont (t : HtmlTokenizer)
  | fault
deriving DecidableEq, Repr

/-- Lift a fallible state update into a loop continuation. -/
def contOf (o : Option HtmlTokenizer) : StepRes :=
  match o with
  | some t => StepRes.cont t
  | none => StepRes.fault

/-- Helper for `self.state = ...; return self.take_latest_token()` (the state change is
already applied to the argument). -/
def emitLatest (t : HtmlTokenizer) : StepRes :=
  match t.take_latest_token with
  | none => StepRes.fault
  | some (tok, t1) => StepRes.emit tok t1

/-- The `match self.state` body of `Iterator::next`, applied to the tokenizer
after the pull and to the pulled character. -/
def stepState (t : HtmlTokenizer) (c : Char) : StepRes :=
  match t.state with
  | State.data =>
      if c = '<' then StepRes.cont { t with state := State.tagOpen }
      else if t.is_eof then StepRes.emit HtmlToken.eof t
      else StepRes.emit (HtmlToken.char c) t
  | State.tagOpen =>
      if c = '/' then StepRes.cont { t with state := State.endTagOpen }
      else if isAsciiAlphabetic c then
        StepRes.cont (HtmlTokenizer.create_tag
          { t with reconsume := true, state := State.tagName } true)
      else if t.is_eof then StepRes.emit HtmlToken.eof t
      else StepRes.cont { t with reconsume := true, state := State.data }
  | State.endTagOpen =>
      if t.is_eof then StepRes.emit HtmlToken.eof t
      else if isAsciiAlphabetic c then
        StepRes.cont (HtmlTokenizer.create_tag
          { t with reconsume := true, state := State.tagName } false)
      else StepRes.cont t
  | State.tagName =>
      if rustIsWhitespace c then StepRes.cont { t with state := State.beforeAttributeName }
      else if c = '/' then StepRes.cont { t with state := State.selfClosingStartTag }
      else if c = '>' then emitLatest { t with state := State.data }
      else if isAsciiUppercase c then
        contOf (HtmlTokenizer.append_tag_name t (toAsciiLowercase c))
      else if t.is_eof then StepRes.emit HtmlToken.eof t
      else contOf (HtmlTokenizer.append_tag_name t c)
  | State.beforeAttributeName =>
      if c = '/' ∨ c = '>' ∨ t.is_eof then
        StepRes.cont { t with reconsume := true, state := State.afterAttributeName }
      else
        contOf (HtmlTokenizer.start_new_attribute
          { t with reconsume := true, state := State.attributeName })
  | State.attributeName =>
      if rustIsWhitespace c ∨ c = '/' ∨ c = '>' ∨ t.is_eof then
        StepRes.cont { t with reconsume := true, state := State.afterAttributeName }
      else if c = '=' then StepRes.cont { t with state := State.beforeAttributeValue }
      else if isAsciiUppercase c then
        contOf (HtmlTokenizer.append_attribute t (toAsciiLowercase c) true)
      else contOf (HtmlTokenizer.append_attribute t c true)
  | State.afterAttributeName =>
      if rustIsWhitespace c then StepRes.cont t
      else if c = '/' then StepRes.cont { t with state := State.selfClosingStartTag }
      else if c = '=' then StepRes.cont { t with state := State.beforeAttributeValue }
      else if c = '>' then emitLatest { t with state := State.data }
      else if t.is_eof then StepRes.emit HtmlToken.eof t
      else
        contOf (HtmlTokenizer.start_new_attribute
          { t with reconsume := true, state := State.attributeName })
  | State.beforeAttributeValue =>
      if rustIsWhitespace c then StepRes.cont t
      else if c = '"' then StepRes.cont { t with state := State.attributeValueDoubleQuoted }
      else if c = '\'' then StepRes.cont { t with state := State.attributeValueSingleQuoted }
      else if c = '>' then emitLatest { t with state := State.data }
      else StepRes.cont { t with reconsume := true, state := State.attributeValueUnquoted }
  | State.attributeValueDoubleQuoted =>
      if c = '"' then StepRes.cont { t with state := State.afterAttributeValueQuoted }
      else if t.is_eof then StepRes.emit HtmlToken.eof t
      else contOf (HtmlTokenizer.append_attribute t c false)
  | State.attributeValueSingleQuoted =>
      if c = '\'' then StepRes.cont { t with state := State.afterAttributeValueQuoted }
      else if t.is_eof then StepRes.emit HtmlToken.eof t
      else contOf (HtmlTokenizer.append_attribute t c false)
  | State.attributeValueUnquoted =>
      if rustIsWhitespace c then StepRes.cont { t with state := State.beforeAttributeName }
      else if c = '>' then emitLatest { t with state := State.data }
      else if t.is_eof then StepRes.emit HtmlToken.eof t
      else contOf (HtmlTokenizer.append_attribute t c false)
  | State.afterAttributeValueQuoted =>
      if rustIsWhitespace c then StepRes.cont { t with state := State.beforeAttributeName }
      else if c = '/' then StepRes.cont { t with state := State.selfClosingStartTag }
      else if c = '>' then emitLatest { t with state := State.data }
      else if t.is_eof then StepRes.emit HtmlToken.eof t
      else StepRes.cont { t with reconsume := true, state := State.beforeAttributeName }
  | State.selfClosingStartTag =>
      if c = '>' then
        match HtmlTokenizer.set_self_closing_flag t with
        | none => StepRes.fault
        | some t1 => emitLatest { t1 with state := State.data }
      else if t.is_eof then StepRes.emit HtmlToken.eof t
      else StepRes.cont { t with reconsume := true, state := State.beforeAttributeName }
  | State.scriptData =>
      if c = '<' then StepRes.cont { t with state := State.scriptDataLessThanSign }
      else if t.is_eof then StepRes.emit HtmlToken.eof t
      else StepRes.emit (HtmlToken.char c) t
  | State.scriptDataLessThanSign =>
      if c = '/' then StepRes.cont { t with buf := [], state := State.scriptDataEndTagOpen }
      else StepRes.emit (HtmlToken.char '<') { t with reconsume := true, state := State.scriptData }
  | State.scriptDataEndTagOpen =>
      -- the alphabetic branch of the source has no `continue`, so both branches
      -- fall through to the final reconsume-and-emit
      let t1 :=
        if isAsciiAlphabetic c then
          HtmlTokenizer.create_tag
            { t with reconsume := true, state := State.scriptDataEndTagName } false
        else t
      StepRes.emit (HtmlToken.char '<') { t1 with reconsume := true, state := State.scriptData }
  | State.scriptDataEndTagName =>
      if c = '>' then emitLatest { t with state := State.data }
      else if isAsciiAlphabetic c then
        contOf (Option.map (fun t1 => { t1 with buf := t1.buf ++ [c] })
          (HtmlTokenizer.append_tag_name t (toAsciiLowercase c)))
      else
        StepRes.cont { t with state := State.temporaryBuffer,
                              buf := ('<' :: '/' :: t.buf) ++ [c] }
  | State.temporaryBuffer =>
      match t.buf with
      | [] => StepRes.cont { t with reconsume := true, state := State.data }
      | c0 :: rest => StepRes.emit (HtmlToken.char c0) { t with reconsume := true, buf := rest }

/-- One iteration of the `loop`: pull a character, then run the state match. -/
def step (t : HtmlTokenizer) : StepRes :=
  match t.pull with
  | none => StepRes.fault
  | some (c, t1) => stepState t1 c

/-- Result of a whole call to `Iterator::next`. -/
inductive NextRes where
  | tok (tk : HtmlToken) (t : HtmlTokenizer)
  | exhausted
  | fault
  | outOfFuel
deriving DecidableEq, Repr

/-- The `loop` of `Iterator::next`, with explicit fuel. -/
def nextLoop : Nat → HtmlTokenizer → NextRes
  | 0, _ => NextRes.outOfFuel
  | fuel + 1, t =>
      match step t with
      | StepRes.emit tk t1 => NextRes.tok tk t1
      | StepRes.fault => NextRes.fault
      | StepRes.cont t1 => nextLoop fuel t1

/-- Function `Iterator::next`: the entry guard `if self.pos >= self.input.len() { return None }`
(modelled by `exhausted`), then the loop.  The fuel `8 * input.length + 13` is
proved sufficient below (`nextLoop` never runs out of fuel at this bound). -/
def next (t : HtmlTokenizer) : NextRes :=
  if t.input.length ≤ t.pos then NextRes.exhausted
  else nextLoop (8 * t.input.length + 13) t

/-- Outcome of iterating the tokenizer to the end. -/
inductive Outcome where
  | finished
  | fault
  | outOfFuel
deriving DecidableEq, Repr

/-- Collect the tokens of repeated `next` calls, with explicit call fuel. -/
def runLoop : Nat → HtmlTokenizer → List HtmlToken × Outcome
  | 0, _ => ([], Outcome.outOfFuel)
  | n + 1, t =>
      match next t with
      | NextRes.exhausted => ([], Outcome.finished)
      | NextRes.fault => ([], Outcome.fault)
      | NextRes.outOfFuel => ([], Outcome.outOfFuel)
      | NextRes.tok tk t1 =>
          let p := runLoop n t1
          (tk :: p.1, p.2)

/-- Full tokenization of an input, as the consumer observes it:
`HtmlTokenizer::new` followed by iterating `next`. -/
def tokenize (input : List Char) : List HtmlToken × Outcome :=
  runLoop (input.length + 1) (HtmlTokenizer.new input)

/-- Concrete input of the attribute-quoting test. -/
def inputC6 : List Char :=
  ['<', 'p', ' ', 'c', 'l', 'a', 's', 's', '=', '"', 'A', '"', ' ',
   'i', 'd', '=', '\'', 'B', '\'', ' ', 'f', 'o', 'o', '=', 'b', 'a', 'r', '>',
   '<', '/', 'p', '>']

/-- Core-field preservation: the two tokenizers agree on everything except
possibly `latest_token`. -/
def sameCore (t t' : HtmlTokenizer) : Prop :=
  t'.state = t.state ∧ t'.pos = t.pos ∧ t'.reconsume = t.reconsume ∧
    t'.input = t.input ∧ t'.buf = t.buf

/-- The tokenizer a step result carries on, when it does not fault. -/
def resTok : StepRes → Option HtmlTokenizer
  | StepRes.emit _ t => some t
  | StepRes.cont t => some t
  | StepRes.fault => none

/-- The five script-content states (including the synthetic temporary-buffer
state), none of which is reachable from the data-state family. -/
def isScriptFamily : State → Bool
  | State.scriptData => true
  | State.scriptDataLessThanSign => true
  | State.scriptDataEndTagOpen => true
  | State.scriptDataEndTagName => true
  | State.temporaryBuffer => true
  | _ => false

/-- Characters on which `AttributeName` hands control back (used only by the
termination measure). -/
def stopChar (c : Char) : Bool :=
  rustIsWhitespace c || decide (c = '/') || decide (c = '>')

/-- Rank of a state for the termination measure: every `continue` that re-arms
the `reconsume` flag strictly decreases the rank at the re-read character. -/
def stateRank : State → Char → Nat
  | State.data, _ => 1
  | State.tagOpen, _ => 2
  | State.endTagOpen, _ => 2
  | State.tagName, _ => 1
  | State.beforeAttributeName, _ => 3
  | State.attributeName, _ => 2
  | State.afterAttributeName, c => if stopChar c then 1 else 3
  | State.beforeAttributeValue, _ => 2
  | State.attributeValueDoubleQuoted, _ => 1
  | State.attributeValueSingleQuoted, _ => 1
  | State.attributeValueUnquoted, _ => 1
  | State.afterAttributeValueQuoted, _ => 4
  | State.selfClosingStartTag, _ => 4
  | State.scriptData, _ => 1
  | State.scriptDataLessThanSign, _ => 1
  | State.scriptDataEndTagOpen, _ => 1
  | State.scriptDataEndTagName, _ => 1
  | State.temporaryBuffer, _ => 2

/-- The character a reconsume pull re-reads (`input[pos - 1]`), as a total
function (any default when out of range). -/
def headChar (t : HtmlTokenizer) : Char :=
  (t.input.get? (t.pos - 1)).getD ' '

/-- Termination measure of the tokenizer loop. -/
def loopMeasure (t : HtmlTokenizer) : Nat :=
  8 * (t.input.length + 1 - t.pos) +
    (if t.reconsume then stateRank t.state (headChar t) else 0)

/-- Configurations an external caller can put the tokenizer in through the
public interface: construction with `new` followed by any number of `next`
calls that produced a token. -/
inductive Reachable (input : List Char) : HtmlTokenizer → Prop where
  | init : Reachable input (HtmlTokenizer.new input)
  | step {t : HtmlTokenizer} {tk : HtmlToken} {t' : HtmlTokenizer} :
      Reachable input t → next t = NextRes.tok tk t' → Reachable input t'

/-- The character the pending pull of a `next` call will deliver. -/
def pulledChar (t : HtmlTokenizer) : Char :=
  if t.reconsume then (t.input.get? (t.pos - 1)).getD ' '
  else (t.input.get? t.pos).getD ' '



/-- C6: tokenizing `<p class="A" id='B' foo=bar></p>` yields exactly the start tag
`p` with attributes `class=A`, `id=B`, `foo=bar` in source order (all three quoting
modes giving the same attribute shape), followed by the end tag `p`, and nothing else. -/
theorem c6_attribute_quoting :
    tokenize inputC6 =
      ([HtmlToken.startTag ['p'] false
          [⟨['c', 'l', 'a', 's', 's'], ['A']⟩, ⟨['i', 'd'], ['B']⟩,
           ⟨['f', 'o', 'o'], ['b', 'a', 'r']⟩],
        HtmlToken.endTag ['p']], Outcome.finished) := by
  decide

/-- C7: tokenizing `<img />` yields the single token
`StartTag{tag:"img", self_closing:true, attributes:[]}` and no further tokens. -/
theorem c7_self_closing :
    tokenize ['<', 'i', 'm', 'g', ' ', '/', '>'] =
      ([HtmlToken.startTag ['i', 'm', 'g'] true []], Outcome.finished) := by
  decide

/-- C8: tokenizing `<DIV CLASS="x">` yields a start tag whose name is folded to
`div` and one attribute whose name is folded to `class` while the value stays `x`. -/
theorem c8_case_folding :
    tokenize ['<', 'D', 'I', 'V', ' ', 'C', 'L', 'A', 'S', 'S', '=', '"', 'x', '"', '>'] =
      ([HtmlToken.startTag ['d', 'i', 'v'] false [⟨['c', 'l', 'a', 's', 's'], ['x']⟩]],
       Outcome.finished) := by
  decide

/-- C2 (failing input): on the unterminated tag `<div` the first call to `next`
does not emit `Eof`; it faults with an out-of-bounds read of `input[4]`
(`consume_next_input` indexes `input[pos]` while `is_eof` only triggers at
`pos > input.len()`, which is never reached). -/
theorem c2_unterminated_tag_faults :
    tokenize ['<', 'd', 'i', 'v'] = ([], Outcome.fault) := by
  decide

/-- C3 (failing input): on the input `<` the single call to `next` consumes `<`,
switches to the tag-open state, loops, and then reads `input[1]` out of bounds:
tokenization faults instead of recovering. -/
theorem c3_lone_angle_faults :
    tokenize ['<'] = ([], Outcome.fault) := by
  decide

/-- C1 (counterexample): on the `<`-free input `a` the tokenizer yields the single
token `Char('a')` and then simply stops (`next` returns `None`); the claimed
trailing `Eof` token is never produced. -/
theorem c1_counterexample :
    tokenize ['a'] = ([HtmlToken.char 'a'], Outcome.finished) ∧
      ([HtmlToken.char 'a'], Outcome.finished) ≠
        (([HtmlToken.char 'a', HtmlToken.eof], Outcome.finished) :
          List HtmlToken × Outcome) := by
  exact ⟨by decide, by decide⟩


@[simp]
theorem contOf_eq_cont {o : Option HtmlTokenizer} {t' : HtmlTokenizer} :
    contOf o = StepRes.cont t' ↔ o = some t' := by
  cases o <;> simp [contOf]

@[simp]
theorem contOf_eq_emit {o : Option HtmlTokenizer} {tk : HtmlToken} {t' : HtmlTokenizer} :
    ¬ contOf o = StepRes.emit tk t' := by
  cases o <;> simp [contOf]

@[simp]
theorem emitLatest_eq_cont {u t' : HtmlTokenizer} : ¬ emitLatest u = StepRes.cont t' := by
  unfold emitLatest HtmlTokenizer.take_latest_token
  cases u.latest_token <;> simp

@[simp]
theorem emitLatest_eq_emit {u : HtmlTokenizer} {tk : HtmlToken} {t' : HtmlTokenizer} :
    emitLatest u = StepRes.emit tk t' ↔
      u.latest_token = some tk ∧ t' = { u with latest_token := none } := by
  unfold emitLatest HtmlTokenizer.take_latest_token
  cases u.latest_token <;> simp
  intro h
  exact eq_comm


theorem sameCore_refl (t : HtmlTokenizer) : sameCore t t :=
  ⟨rfl, rfl, rfl, rfl, rfl⟩

@[simp]
theorem create_tag_core (t : HtmlTokenizer) (b : Bool) :
    sameCore t (t.create_tag b) := by
  unfold HtmlTokenizer.create_tag
  split <;> exact ⟨rfl, rfl, rfl, rfl, rfl⟩

theorem create_tag_latest (t : HtmlTokenizer) (b : Bool) :
    (t.create_tag b).latest_token ≠ some HtmlToken.eof := by
  unfold HtmlTokenizer.create_tag
  split <;> simp

theorem append_tag_name_spec {t : HtmlTokenizer} {c : Char} {t' : HtmlTokenizer}
    (h : t.append_tag_name c = some t') :
    sameCore t t' ∧ t'.latest_token ≠ some HtmlToken.eof := by
  unfold HtmlTokenizer.append_tag_name at h
  cases hl : t.latest_token with
  | none => rw [hl] at h; exact absurd h (by simp)
  | some tk =>
      rw [hl] at h
      cases tk <;> simp at h <;> subst h <;>
        exact ⟨⟨rfl, rfl, rfl, rfl, rfl⟩, by simp⟩

theorem start_new_attribute_spec {t t' : HtmlTokenizer}
    (h : t.start_new_attribute = some t') :
    sameCore t t' ∧ t'.latest_token ≠ some HtmlToken.eof := by
  unfold HtmlTokenizer.start_new_attribute at h
  cases hl : t.latest_token with
  | none => rw [hl] at h; exact absurd h (by simp)
  | some tk =>
      rw [hl] at h
      cases tk <;> simp at h <;> subst h <;>
        exact ⟨⟨rfl, rfl, rfl, rfl, rfl⟩, by simp⟩

theorem append_attribute_spec {t : HtmlTokenizer} {c : Char} {b : Bool} {t' : HtmlTokenizer}
    (h : t.append_attribute c b = some t') :
    sameCore t t' ∧ t'.latest_token ≠ some HtmlToken.eof := by
  unfold HtmlTokenizer.append_attribute at h
  cases hl : t.latest_token with
  | none => rw [hl] at h; exact absurd h (by simp)
  | some tk =>
      rw [hl] at h
      cases tk <;> simp at h
      case startTag tag sc attrs =>
        cases hg : attrs.getLast? <;> rw [hg] at h <;> simp at h <;> try subst h
        · exact ⟨⟨rfl, rfl, rfl, rfl, rfl⟩, by simp⟩

theorem set_self_closing_flag_spec {t t' : HtmlTokenizer}
    (h : t.set_self_closing_flag = some t') :
    sameCore t t' ∧ t'.latest_token ≠ some HtmlToken.eof := by
  unfold HtmlTokenizer.set_self_closing_flag at h
  cases hl : t.latest_token with
  | none => rw [hl] at h; exact absurd h (by simp)
  | some tk =>
      rw [hl] at h
      cases tk <;> simp at h <;> subst h <;>
        exact ⟨⟨rfl, rfl, rfl, rfl, rfl⟩, by simp⟩



theorem resTok_contOf {o : Option HtmlTokenizer} {t' : HtmlTokenizer}
    (h : resTok (contOf o) = some t') : o = some t' := by
  cases o <;> simp [contOf, resTok] at h
  rw [h]

theorem resTok_emitLatest {u t' : HtmlTokenizer}
    (h : resTok (emitLatest u) = some t') :
    t' = { u with latest_token := none } ∧ ∃ tk, u.latest_token = some tk := by
  unfold emitLatest HtmlTokenizer.take_latest_token at h
  cases hu : u.latest_token <;> rw [hu] at h <;> simp [resTok] at h
  exact ⟨h.symm, _, rfl⟩



theorem spec_of_emitLatest_data {t t' : HtmlTokenizer}
    (h : resTok (emitLatest { t with state := State.data }) = some t') :
    t'.pos = t.pos ∧ t'.input = t.input ∧
      (t.latest_token ≠ some HtmlToken.eof → t'.latest_token ≠ some HtmlToken.eof) ∧
      (isScriptFamily t.state = false → isScriptFamily t'.state = false) := by
  obtain ⟨rfl, -⟩ := resTok_emitLatest h
  exact ⟨rfl, rfl, fun _ => by simp, fun _ => rfl⟩

theorem spec_of_append_tag_name {t : HtmlTokenizer} {c2 : Char} {t' : HtmlTokenizer}
    (h : resTok (contOf (t.append_tag_name c2)) = some t') :
    t'.pos = t.pos ∧ t'.input = t.input ∧
      (t.latest_token ≠ some HtmlToken.eof → t'.latest_token ≠ some HtmlToken.eof) ∧
      (isScriptFamily t.state = false → isScriptFamily t'.state = false) := by
  obtain ⟨⟨hst, hp, -, hi, -⟩, hne⟩ := append_tag_name_spec (resTok_contOf h)
  exact ⟨hp, hi, fun _ => hne, fun hp2 => by rw [hst]; exact hp2⟩

theorem spec_of_sna {t t' : HtmlTokenizer}
    (h : resTok (contOf (HtmlTokenizer.start_new_attribute
      { t with reconsume := true, state := State.attributeName })) = some t') :
    t'.pos = t.pos ∧ t'.input = t.input ∧
      (t.latest_token ≠ some HtmlToken.eof → t'.latest_token ≠ some HtmlToken.eof) ∧
      (isScriptFamily t.state = false → isScriptFamily t'.state = false) := by
  obtain ⟨⟨hst, hp, -, hi, -⟩, hne⟩ := start_new_attribute_spec (resTok_contOf h)
  refine ⟨hp, hi, fun _ => hne, fun _ => ?_⟩
  rw [hst]
  rfl

theorem spec_of_append_attribute {t : HtmlTokenizer} {c2 : Char} {b : Bool}
    {t' : HtmlTokenizer}
    (h : resTok (contOf (t.append_attribute c2 b)) = some t') :
    t'.pos = t.pos ∧ t'.input = t.input ∧
      (t.latest_token ≠ some HtmlToken.eof → t'.latest_token ≠ some HtmlToken.eof) ∧
      (isScriptFamily t.state = false → isScriptFamily t'.state = false) := by
  obtain ⟨⟨hst, hp, -, hi, -⟩, hne⟩ := append_attribute_spec (resTok_contOf h)
  exact ⟨hp, hi, fun _ => hne, fun hp2 => by rw [hst]; exact hp2⟩

/-- Master framing lemma for one state-match step: position and input are
untouched, a non-`eof` pending token stays non-`eof`, and the data-state
family is closed under the transition. -/
theorem stepState_spec {t : HtmlTokenizer} {c : Char} {t' : HtmlTokenizer}
    (h : resTok (stepState t c) = some t') :
    t'.pos = t.pos ∧ t'.input = t.input ∧
      (t.latest_token ≠ some HtmlToken.eof → t'.latest_token ≠ some HtmlToken.eof) ∧
      (isScriptFamily t.state = false → isScriptFamily t'.state = false) := by
  obtain ⟨st, po, re, la, inp, bu⟩ := t
  cases st
  case selfClosingStartTag =>
    simp only [stepState] at h
    split_ifs at h
    · rcases hf : HtmlTokenizer.set_self_closing_flag ⟨State.selfClosingStartTag, po, re, la, inp, bu⟩
        with - | t1 <;> rw [hf] at h
      · exact absurd h (by simp [resTok])
      · obtain ⟨ht', -⟩ := resTok_emitLatest h
        obtain ⟨⟨-, hp, -, hi, -⟩, -⟩ := set_self_closing_flag_spec hf
        subst ht'
        exact ⟨hp, hi, fun _ => by simp, fun _ => rfl⟩
    · simp only [resTok, Option.some.injEq] at h
      subst h
      exact ⟨rfl, rfl, fun hl => hl, fun hp => hp⟩
    · simp only [resTok, Option.some.injEq] at h
      subst h
      exact ⟨rfl, rfl, fun hl => hl, fun _ => rfl⟩
  case temporaryBuffer =>
    simp only [stepState] at h
    rcases bu with - | ⟨c0, rest⟩ <;> simp only [resTok, Option.some.injEq] at h <;> subst h
    · exact ⟨rfl, rfl, fun hl => hl, fun _ => rfl⟩
    · exact ⟨rfl, rfl, fun hl => hl, fun hp => hp⟩
  case scriptDataEndTagName =>
    simp only [stepState] at h
    split_ifs at h
    · obtain ⟨rfl, -⟩ := resTok_emitLatest h
      exact ⟨rfl, rfl, fun _ => by simp, fun _ => rfl⟩
    · have h2 := resTok_contOf h
      rw [Option.map_eq_some'] at h2
      obtain ⟨t1, hx, hf⟩ := h2
      obtain ⟨⟨-, hp, -, hi, -⟩, hne⟩ := append_tag_name_spec hx
      subst hf
      exact ⟨hp, hi, fun _ => hne, fun hp2 => nomatch hp2⟩
    · simp only [resTok, Option.some.injEq] at h
      subst h
      exact ⟨rfl, rfl, fun hl => hl, fun hp2 => nomatch hp2⟩
  all_goals (
    simp only [stepState] at h <;> (try split_ifs at h) <;>
    first
    | exact spec_of_emitLatest_data h
    | exact spec_of_append_tag_name h
    | exact spec_of_sna h
    | exact spec_of_append_attribute h
    | (simp only [resTok, Option.some.injEq] at h
       subst h
       first
       | exact ⟨rfl, rfl, fun hl => hl, fun hp => hp⟩
       | exact ⟨rfl, rfl, fun hl => hl, fun _ => rfl⟩
       | exact ⟨rfl, rfl, fun _ => create_tag_latest _ _, fun _ => rfl⟩
       | exact ⟨rfl, rfl, fun hl => hl, fun hp => nomatch hp⟩
       | exact ⟨rfl, rfl, fun _ => create_tag_latest _ _, fun hp => nomatch hp⟩
       | exact ⟨rfl, rfl, fun _ h2 => nomatch h2, fun hp => nomatch hp⟩
       | exact ⟨rfl, rfl, fun _ h2 => nomatch h2, fun _ => rfl⟩))



theorem stateRank_le (s : State) (c : Char) : stateRank s c ≤ 4 := by
  cases s <;> simp only [stateRank] <;> (try split_ifs) <;> omega

theorem one_le_stateRank (s : State) (c : Char) : 1 ≤ stateRank s c := by
  cases s <;> simp only [stateRank] <;> (try split_ifs) <;> omega

theorem contOf_cont_reconsume_atn {t : HtmlTokenizer} {c2 : Char} {t' : HtmlTokenizer}
    (h : contOf (t.append_tag_name c2) = StepRes.cont t') : t'.reconsume = t.reconsume :=
  (append_tag_name_spec (contOf_eq_cont.mp h)).1.2.2.1

theorem contOf_cont_reconsume_aa {t : HtmlTokenizer} {c2 : Char} {b : Bool} {t' : HtmlTokenizer}
    (h : contOf (t.append_attribute c2 b) = StepRes.cont t') : t'.reconsume = t.reconsume :=
  (append_attribute_spec (contOf_eq_cont.mp h)).1.2.2.1

/-- Every state-match step that continues the loop with the `reconsume` flag armed
strictly decreases the state rank at the character just read (provided the pull
cleared the flag and the end-of-input test is false, as on every real iteration). -/
theorem stepState_cont_rank {t : HtmlTokenizer} {c : Char} {t' : HtmlTokenizer}
    (hr : t.reconsume = false) (hfe : t.is_eof = false)
    (h : stepState t c = StepRes.cont t') (hr' : t'.reconsume = true) :
    stateRank t'.state c < stateRank t.state c := by
  obtain ⟨st, po, re, la, inp, bu⟩ := t
  cases st
  case beforeAttributeName =>
    simp only [stepState] at h
    split_ifs at h with h1
    · injection h with h2
      subst h2
      rcases h1 with hc | hc | hc
      · subst hc
        show stateRank State.afterAttributeName '/' < stateRank State.beforeAttributeName '/'
        decide
      · subst hc
        show stateRank State.afterAttributeName '>' < stateRank State.beforeAttributeName '>'
        decide
      · exact absurd (hfe.symm.trans hc) (by simp)
    · obtain ⟨⟨hst, -, hrc, -, -⟩, -⟩ := start_new_attribute_spec (contOf_eq_cont.mp h)
      rw [hst]
      simp only [stateRank]
      omega
  case attributeName =>
    simp only [stepState] at h
    split_ifs at h with h1 h2 h3
    · injection h with h4
      subst h4
      rcases h1 with hc | hc | hc | hc
      · show (if stopChar c then 1 else 3) < 2
        simp [stopChar, hc]
      · subst hc
        show stateRank State.afterAttributeName '/' < stateRank State.attributeName '/'
        decide
      · subst hc
        show stateRank State.afterAttributeName '>' < stateRank State.attributeName '>'
        decide
      · exact absurd (hfe.symm.trans hc) (by simp)
    · injection h with h4
      subst h4
      exact Bool.noConfusion (hr.symm.trans hr')
    · obtain ⟨⟨-, -, hrc, -, -⟩, -⟩ := append_attribute_spec (contOf_eq_cont.mp h)
      exact Bool.noConfusion (hr.symm.trans (hrc.symm.trans hr'))
    · obtain ⟨⟨-, -, hrc, -, -⟩, -⟩ := append_attribute_spec (contOf_eq_cont.mp h)
      exact Bool.noConfusion (hr.symm.trans (hrc.symm.trans hr'))
  case afterAttributeName =>
    simp only [stepState] at h
    split_ifs at h with h1 h2 h3 h4 h5
    · injection h with h6
      subst h6
      exact Bool.noConfusion (hr.symm.trans hr')
    · injection h with h6
      subst h6
      exact Bool.noConfusion (hr.symm.trans hr')
    · injection h with h6
      subst h6
      exact Bool.noConfusion (hr.symm.trans hr')
    · exact absurd h emitLatest_eq_cont
    · obtain ⟨⟨hst, -, -, -, -⟩, -⟩ := start_new_attribute_spec (contOf_eq_cont.mp h)
      rw [hst]
      have hsc : stopChar c = false := by
        simp only [stopChar, Bool.or_eq_false_iff, decide_eq_false_iff_not]
        exact ⟨⟨Bool.not_eq_true _ ▸ h1, h2⟩, h4⟩
      show (2 : Nat) < stateRank State.afterAttributeName c
      simp [stateRank, hsc]
  case selfClosingStartTag =>
    simp only [stepState] at h
    split_ifs at h
    · rcases hf : HtmlTokenizer.set_self_closing_flag
          ⟨State.selfClosingStartTag, po, re, la, inp, bu⟩ with - | t1 <;> rw [hf] at h
      · exact StepRes.noConfusion h
      · exact absurd h emitLatest_eq_cont
    · injection h with h6
      subst h6
      simp only [stateRank]
      omega
  case temporaryBuffer =>
    simp only [stepState] at h
    rcases bu with - | ⟨c0, rest⟩
    · injection h with h6
      subst h6
      simp only [stateRank]
      omega
    · exact StepRes.noConfusion h
  case scriptDataEndTagName =>
    simp only [stepState] at h
    split_ifs at h
    · exact absurd h emitLatest_eq_cont
    · have h2 := contOf_eq_cont.mp h
      rcases Option.map_eq_some'.mp h2 with ⟨t1, hx, hf⟩
      obtain ⟨⟨-, -, hrc, -, -⟩, -⟩ := append_tag_name_spec hx
      subst hf
      exact Bool.noConfusion (hr.symm.trans (hrc.symm.trans hr'))
    · injection h with h6
      subst h6
      exact Bool.noConfusion (hr.symm.trans hr')
  all_goals (
    simp only [stepState] at h <;> (try split_ifs at h) <;>
    first
    | exact StepRes.noConfusion h
    | exact absurd h emitLatest_eq_cont
    | (injection h with h6; subst h6;
       first
       | exact Bool.noConfusion (hr.symm.trans hr')
       | (simp only [stateRank]; omega)
       | (simp [stateRank, HtmlTokenizer.create_tag]))
    | exact Bool.noConfusion (hr.symm.trans ((contOf_cont_reconsume_atn h).symm.trans hr'))
    | exact Bool.noConfusion (hr.symm.trans ((contOf_cont_reconsume_aa h).symm.trans hr')))


/-- A step taken with the end-of-input test false and a non-`eof` pending token
never emits the `Eof` token. -/
theorem stepState_emit_no_eof {t : HtmlTokenizer} {c : Char} {tk : HtmlToken}
    {t' : HtmlTokenizer}
    (hfe : t.is_eof = false) (hlat : t.latest_token ≠ some HtmlToken.eof)
    (h : stepState t c = StepRes.emit tk t') : tk ≠ HtmlToken.eof := by
  obtain ⟨st, po, re, la, inp, bu⟩ := t
  cases st
  case selfClosingStartTag =>
    simp only [stepState, hfe] at h
    split_ifs at h with h1 h2
    · rcases hf : HtmlTokenizer.set_self_closing_flag
          ⟨State.selfClosingStartTag, po, re, la, inp, bu⟩ with - | t1 <;> rw [hf] at h
      · exact StepRes.noConfusion h
      · rw [emitLatest_eq_emit] at h
        obtain ⟨-, hne⟩ := set_self_closing_flag_spec hf
        exact fun he => hne (he ▸ h.1)
    · exact absurd h2 (by simp [hfe])
  case temporaryBuffer =>
    simp only [stepState] at h
    rcases bu with - | ⟨c0, rest⟩
    · exact StepRes.noConfusion h
    · injection h with h1 h2
      exact fun he => HtmlToken.noConfusion (h1.trans he)
  all_goals (
    simp only [stepState, hfe] at h <;> (try split_ifs at h) <;>
    first
    | exact (‹False›).elim
    | exact StepRes.noConfusion h
    | exact absurd h contOf_eq_emit
    | (injection h with h1 h2; exact fun he => HtmlToken.noConfusion (h1.trans he))
    | (rw [emitLatest_eq_emit] at h; exact fun he => hlat (he ▸ h.1)))



/-- Characterization of a successful pull: frame conditions, the cleared
`reconsume` flag, the in-range cursor, and the cursor motion of each mode. -/
theorem pull_spec {t : HtmlTokenizer} {c : Char} {t1 : HtmlTokenizer}
    (h : t.pull = some (c, t1)) :
    t1.state = t.state ∧ t1.latest_token = t.latest_token ∧ t1.input = t.input ∧
      t1.buf = t.buf ∧ t1.reconsume = false ∧ t1.pos ≤ t1.input.length ∧
      (if t.reconsume then t1.pos = t.pos ∧ 1 ≤ t.pos ∧ c = headChar t
       else t1.pos = t.pos + 1 ∧ t.pos < t.input.length) := by
  unfold HtmlTokenizer.pull at h
  rcases hre : t.reconsume <;> simp only [hre] at h
  · rw [if_neg (by simp)] at h
    split at h
    case isTrue hin =>
      injection h with h1
      injection h1 with hc h2
      subst h2
      refine ⟨rfl, rfl, rfl, rfl, rfl, by show t.pos + 1 ≤ t.input.length; omega, ?_⟩
      rw [if_neg (by simp [hre])]
      exact ⟨rfl, hin⟩
    case isFalse => exact Option.noConfusion h
  · rw [if_pos (by simp)] at h
    split at h
    case isTrue hin =>
      injection h with h1
      injection h1 with hc h2
      subst h2
      refine ⟨rfl, rfl, rfl, rfl, rfl, by show t.pos ≤ t.input.length; omega, ?_⟩
      rw [if_pos (by simp [hre])]
      refine ⟨rfl, hin.1, ?_⟩
      rw [← hc]
      unfold headChar
      rw [List.get?_eq_getElem?, List.getElem?_eq_getElem hin.2]
      simp [List.get_eq_getElem]
    case isFalse => exact Option.noConfusion h


theorem loopMeasure_reconsume_bound (t : HtmlTokenizer) :
    (if t.reconsume then stateRank t.state (headChar t) else 0) ≤ 4 := by
  split_ifs
  · exact stateRank_le _ _
  · omega

/-- Each loop iteration that continues strictly decreases the measure. -/
theorem step_cont_measure {t t' : HtmlTokenizer} (h : step t = StepRes.cont t') :
    loopMeasure t' < loopMeasure t := by
  unfold step at h
  rcases hpull : t.pull with - | ⟨c, t1⟩
  · rw [hpull] at h
    exact StepRes.noConfusion h
  rw [hpull] at h
  have h2 : stepState t1 c = StepRes.cont t' := h
  obtain ⟨hst1, hlt1, hin1, hbu1, hre1, hpos1, hmode⟩ := pull_spec hpull
  have hres : resTok (stepState t1 c) = some t' := by rw [h2]; rfl
  obtain ⟨hp, hi, -, -⟩ := stepState_spec hres
  rcases hre : t.reconsume <;> rw [hre] at hmode <;> simp only [Bool.false_eq_true, if_false,
    if_true] at hmode
  · -- consume mode: the cursor advanced
    obtain ⟨hp1, hlt⟩ := hmode
    have hb := loopMeasure_reconsume_bound t'
    have e1 : loopMeasure t = 8 * (t.input.length + 1 - t.pos) + 0 := by
      unfold loopMeasure
      rw [hre]
      simp
    have e2 : loopMeasure t' = 8 * (t.input.length + 1 - (t.pos + 1)) +
        (if t'.reconsume then stateRank t'.state (headChar t') else 0) := by
      unfold loopMeasure
      rw [hp, hi, hin1, hp1]
    omega
  · -- reconsume mode: same cursor; the rank strictly decreases or the flag drops
    obtain ⟨hp1, hone, hc⟩ := hmode
    have hhc : headChar t' = headChar t := by
      unfold headChar
      rw [hp, hi, hin1, hp1]
    have e1 : loopMeasure t = 8 * (t.input.length + 1 - t.pos) +
        stateRank t.state (headChar t) := by
      unfold loopMeasure
      rw [hre]
      simp
    rcases hre' : t'.reconsume
    · have e2 : loopMeasure t' = 8 * (t.input.length + 1 - t.pos) + 0 := by
        unfold loopMeasure
        rw [hre', hp, hi, hin1, hp1]
        simp
      have hr1 := one_le_stateRank t.state (headChar t)
      omega
    · have hfe1 : t1.is_eof = false := by
        unfold HtmlTokenizer.is_eof
        simp only [decide_eq_false_iff_not]
        omega
      have hrank := stepState_cont_rank hre1 hfe1 h2 (by rw [hre'])
      rw [hst1, hc] at hrank
      have e2 : loopMeasure t' = 8 * (t.input.length + 1 - t.pos) +
          stateRank t'.state (headChar t) := by
        unfold loopMeasure
        rw [hre', hp, hi, hin1, hp1, hhc]
        simp
      omega

/-- With fuel above the measure the loop never reports `outOfFuel`. -/
theorem nextLoop_runs : ∀ (n : Nat) (t : HtmlTokenizer), loopMeasure t < n →
    nextLoop n t ≠ NextRes.outOfFuel := by
  intro n
  induction n with
  | zero => intro t ht; omega
  | succ n ih =>
      intro t ht
      show (match step t with
            | StepRes.emit tk t1 => NextRes.tok tk t1
            | StepRes.fault => NextRes.fault
            | StepRes.cont t1 => nextLoop n t1) ≠ NextRes.outOfFuel
      rcases hstep : step t with ⟨tk, t1⟩ | t1 | -
      · exact fun hx => NextRes.noConfusion hx
      · have := step_cont_measure hstep
        exact ih t1 (by omega)
      · exact fun hx => NextRes.noConfusion hx


/-- A non-faulting loop iteration keeps the cursor in range, keeps a non-`eof`
pending token non-`eof`, and stays inside the data-state family. -/
theorem step_spec {t t' : HtmlTokenizer} (h : resTok (step t) = some t') :
    t'.pos ≤ t'.input.length ∧
      (t.latest_token ≠ some HtmlToken.eof → t'.latest_token ≠ some HtmlToken.eof) ∧
      (isScriptFamily t.state = false → isScriptFamily t'.state = false) := by
  unfold step at h
  rcases hpull : t.pull with - | ⟨c, t1⟩ <;> rw [hpull] at h
  · exact Option.noConfusion h
  have h2 : resTok (stepState t1 c) = some t' := h
  obtain ⟨hst1, hlt1, hin1, hbu1, hre1, hpos1, -⟩ := pull_spec hpull
  obtain ⟨hp, hi, hlat, hpl⟩ := stepState_spec h2
  refine ⟨by rw [hp, hi]; exact hpos1, ?_, ?_⟩
  · intro hx
    exact hlat (by rw [hlt1]; exact hx)
  · intro hx
    exact hpl (by rw [hst1]; exact hx)

/-- A loop iteration that emits a token never emits `Eof` when the pending
token is not `Eof` (the cursor bound needed for the end-of-input test comes
from the pull itself). -/
theorem step_emit_not_eof {t : HtmlTokenizer} {tk : HtmlToken} {t' : HtmlTokenizer}
    (hlat : t.latest_token ≠ some HtmlToken.eof) (h : step t = StepRes.emit tk t') :
    tk ≠ HtmlToken.eof := by
  unfold step at h
  rcases hpull : t.pull with - | ⟨c, t1⟩ <;> rw [hpull] at h
  · exact StepRes.noConfusion h
  have h2 : stepState t1 c = StepRes.emit tk t' := h
  obtain ⟨hst1, hlt1, hin1, hbu1, hre1, hpos1, -⟩ := pull_spec hpull
  have hfe1 : t1.is_eof = false := by
    unfold HtmlTokenizer.is_eof
    simp only [decide_eq_false_iff_not]
    omega
  exact stepState_emit_no_eof hfe1 (by rw [hlt1]; exact hlat) h2

/-- Loop-level invariant: a token produced by the loop is never `Eof`, the
returned tokenizer has its cursor in range and a non-`eof` pending token, and
the data-state family is preserved. -/
theorem nextLoop_tok_spec : ∀ (fuel : Nat) {t : HtmlTokenizer} {tk : HtmlToken}
    {t' : HtmlTokenizer}, t.latest_token ≠ some HtmlToken.eof →
    nextLoop fuel t = NextRes.tok tk t' →
    t'.pos ≤ t'.input.length ∧ t'.latest_token ≠ some HtmlToken.eof ∧
      tk ≠ HtmlToken.eof ∧
      (isScriptFamily t.state = false → isScriptFamily t'.state = false) := by
  intro fuel
  induction fuel with
  | zero =>
      intro t tk t' hlat h
      exact NextRes.noConfusion h
  | succ n ih =>
      intro t tk t' hlat h
      simp only [nextLoop] at h
      rcases hstep : step t with ⟨tk0, t1⟩ | t1 | - <;> rw [hstep] at h
      · have h3 : NextRes.tok tk0 t1 = NextRes.tok tk t' := h
        injection h3 with e1 e2
        subst e1
        subst e2
        have hres : resTok (step t) = some t1 := by rw [hstep]; rfl
        obtain ⟨hp, hlat2, hpl⟩ := step_spec hres
        exact ⟨hp, hlat2 hlat, step_emit_not_eof hlat hstep, hpl⟩
      · have h3 : nextLoop n t1 = NextRes.tok tk t' := h
        have hres : resTok (step t) = some t1 := by rw [hstep]; rfl
        obtain ⟨hp, hlat2, hpl⟩ := step_spec hres
        obtain ⟨k1, k2, k3, k4⟩ := ih (hlat2 hlat) h3
        exact ⟨k1, k2, k3, fun hx => k4 (hpl hx)⟩
      · exact NextRes.noConfusion h

/-- Calling `next` on an exhausted tokenizer returns `None` (the entry guard). -/
theorem next_exhausted {t : HtmlTokenizer} (hp : t.input.length ≤ t.pos) :
    next t = NextRes.exhausted := by
  unfold next
  rw [if_pos hp]

/-- Invariant at the `next` level, from the loop-level one. -/
theorem next_tok_spec {t : HtmlTokenizer} {tk : HtmlToken} {t' : HtmlTokenizer}
    (hlat : t.latest_token ≠ some HtmlToken.eof) (h : next t = NextRes.tok tk t') :
    t'.pos ≤ t'.input.length ∧ t'.latest_token ≠ some HtmlToken.eof ∧
      tk ≠ HtmlToken.eof ∧
      (isScriptFamily t.state = false → isScriptFamily t'.state = false) := by
  unfold next at h
  split_ifs at h
  exact nextLoop_tok_spec _ hlat h



theorem reachable_spec {input : List Char} {t : HtmlTokenizer} (h : Reachable input t) :
    t.latest_token ≠ some HtmlToken.eof ∧ isScriptFamily t.state = false := by
  induction h with
  | init => exact ⟨by simp [HtmlTokenizer.new], rfl⟩
  | step hr hn ih =>
      obtain ⟨-, k2, -, k4⟩ := next_tok_spec ih.1 hn
      exact ⟨k2, k4 ih.2⟩



theorem c5_aux_step {po : Nat} {re : Bool} {la : Option HtmlToken}
    {inp bu : List Char} (hp : po < inp.length) (hr : re = true → 1 ≤ po) :
    step ⟨State.scriptDataEndTagOpen, po, re, la, inp, bu⟩ =
      StepRes.emit (HtmlToken.char '<')
        ⟨State.scriptData, (if re then po else po + 1), true,
         (if isAsciiAlphabetic (pulledChar ⟨State.scriptDataEndTagOpen, po, re, la, inp, bu⟩)
          then some (HtmlToken.endTag []) else la),
         inp, bu⟩ := by
  rcases re
  · have hpc : pulledChar ⟨State.scriptDataEndTagOpen, po, false, la, inp, bu⟩ =
        inp.get ⟨po, hp⟩ := by
      unfold pulledChar
      rw [if_neg (by simp)]
      show (inp.get? po).getD ' ' = _
      rw [List.get?_eq_getElem?, List.getElem?_eq_getElem hp]
      simp [List.get_eq_getElem]
    rw [hpc]
    unfold step HtmlTokenizer.pull
    rw [if_neg (by simp)]
    rw [dif_pos hp]
    show stepState ⟨State.scriptDataEndTagOpen, po + 1, false, la, inp, bu⟩ (inp.get ⟨po, hp⟩) = _
    unfold stepState
    rcases halpha : isAsciiAlphabetic (inp.get ⟨po, hp⟩) <;>
      simp [halpha, HtmlTokenizer.create_tag]
  · have h1 : 1 ≤ po := hr rfl
    have hp1 : po - 1 < inp.length := by omega
    have hpc : pulledChar ⟨State.scriptDataEndTagOpen, po, true, la, inp, bu⟩ =
        inp.get ⟨po - 1, hp1⟩ := by
      unfold pulledChar
      rw [if_pos (by simp)]
      show (inp.get? (po - 1)).getD ' ' = _
      rw [List.get?_eq_getElem?, List.getElem?_eq_getElem hp1]
      simp [List.get_eq_getElem]
    rw [hpc]
    unfold step HtmlTokenizer.pull
    rw [if_pos (by simp)]
    rw [dif_pos ⟨h1, hp1⟩]
    show stepState ⟨State.scriptDataEndTagOpen, po, false, la, inp, bu⟩ (inp.get ⟨po - 1, hp1⟩) = _
    unfold stepState
    rcases halpha : isAsciiAlphabetic (inp.get ⟨po - 1, hp1⟩) <;>
      simp [halpha, HtmlTokenizer.create_tag]


/-- C5: a `next` call made in state `ScriptDataEndTagOpen` and about to pull a
character (the entry guard passed, and the cursor in range for the pull) always
returns `Char('<')` and leaves the machine in `ScriptData` with the `reconsume`
flag armed, regardless of whether the pulled character is alphabetic; when it is
ASCII alphabetic, an empty `EndTag` is additionally created as the in-progress
token before the fall-through. -/
theorem c5_script_data_end_tag_open (t : HtmlTokenizer) (hs : t.state = State.scriptDataEndTagOpen)
    (hp : t.pos < t.input.length) (hr : t.reconsume = true → 1 ≤ t.pos) :
    next t = NextRes.tok (HtmlToken.char '<')
      ⟨State.scriptData, (if t.reconsume then t.pos else t.pos + 1), true,
       (if isAsciiAlphabetic (pulledChar t) then some (HtmlToken.endTag [])
        else t.latest_token),
       t.input, t.buf⟩ := by
  obtain ⟨st, po, re, la, inp, bu⟩ := t
  have hs2 : st = State.scriptDataEndTagOpen := hs
  subst hs2
  have hp' : po < inp.length := hp
  have hr' : re = true → 1 ≤ po := hr
  unfold next
  rw [if_neg (by simp only [not_le]; exact hp')]
  show nextLoop ((8 * inp.length + 12) + 1)
      ⟨State.scriptDataEndTagOpen, po, re, la, inp, bu⟩ = _
  simp only [nextLoop]
  rw [c5_aux_step hp' hr']

theorem c5_script_data_end_tag_open_witness :
    next ⟨State.scriptDataEndTagOpen, 0, false, none, ['a'], []⟩ =
      NextRes.tok (HtmlToken.char '<')
        ⟨State.scriptData, 1, true, some (HtmlToken.endTag []), ['a'], []⟩ := by
  have h := c5_script_data_end_tag_open ⟨State.scriptDataEndTagOpen, 0, false, none, ['a'], []⟩
    rfl (by decide) (by decide)
  exact h


theorem runLoop_data_aux : ∀ (n : Nat) (t : HtmlTokenizer), t.state = State.data →
    t.reconsume = false → t.pos + n = t.input.length →
    (∀ i (hi : i < t.input.length), t.pos ≤ i → t.input.get ⟨i, hi⟩ ≠ '<') →
    runLoop (n + 1) t = ((t.input.drop t.pos).map HtmlToken.char, Outcome.finished) := by
  intro n
  induction n with
  | zero =>
      intro t h1 h2 h3 h4
      have hd : t.input.drop t.pos = [] := List.drop_eq_nil_of_le (by omega)
      simp only [runLoop]
      rw [next_exhausted (by omega)]
      simp [hd]
  | succ n ih =>
      intro t h1 h2 h3 h4
      obtain ⟨st, po, re, la, inp, bu⟩ := t
      have e1 : st = State.data := h1
      subst e1
      have e2 : re = false := h2
      subst e2
      have h3' : po + (n + 1) = inp.length := h3
      have hp : po < inp.length := by omega
      have hstep : step ⟨State.data, po, false, la, inp, bu⟩ =
          StepRes.emit (HtmlToken.char (inp.get ⟨po, hp⟩))
            ⟨State.data, po + 1, false, la, inp, bu⟩ := by
        unfold step HtmlTokenizer.pull
        rw [if_neg (by simp), dif_pos hp]
        show stepState ⟨State.data, po + 1, false, la, inp, bu⟩ (inp.get ⟨po, hp⟩) = _
        unfold stepState
        rw [if_neg (h4 po hp (le_refl po))]
        rw [if_neg (by simp [HtmlTokenizer.is_eof]; omega)]
      have hnext : next ⟨State.data, po, false, la, inp, bu⟩ =
          NextRes.tok (HtmlToken.char (inp.get ⟨po, hp⟩))
            ⟨State.data, po + 1, false, la, inp, bu⟩ := by
        unfold next
        rw [if_neg (by simp only [not_le]; exact hp)]
        show nextLoop ((8 * inp.length + 12) + 1) ⟨State.data, po, false, la, inp, bu⟩ = _
        simp only [nextLoop]
        rw [hstep]
      have ihres := ih ⟨State.data, po + 1, false, la, inp, bu⟩ rfl rfl
        (by show po + 1 + n = inp.length; omega)
        (fun i hi hle => h4 i hi (by
          have hle2 : po + 1 ≤ i := hle
          show po ≤ i
          omega))
      simp only [runLoop]
      rw [hnext]
      show (HtmlToken.char (inp.get ⟨po, hp⟩) ::
            (runLoop (n + 1) ⟨State.data, po + 1, false, la, inp, bu⟩).1,
            (runLoop (n + 1) ⟨State.data, po + 1, false, la, inp, bu⟩).2) = _
      rw [ihres]
      show (HtmlToken.char (inp.get ⟨po, hp⟩) ::
          (inp.drop (po + 1)).map HtmlToken.char, Outcome.finished) =
        ((inp.drop po).map HtmlToken.char, Outcome.finished)
      rw [List.drop_eq_getElem_cons hp, List.map_cons, List.get_eq_getElem]

/-- C1 (amended): for every input containing no `<`, iterating the tokenizer
yields exactly one `Char` token per input scalar value, in input order, after
which iteration ends (`next` returns `None`); no `Eof` token is emitted. -/
theorem c1_no_lt_char_tokens : ∀ (input : List Char), '<' ∉ input →
    tokenize input = (input.map HtmlToken.char, Outcome.finished) := by
  intro input hni
  unfold tokenize
  have hres := runLoop_data_aux input.length (HtmlTokenizer.new input) rfl rfl
    (by show 0 + input.length = input.length; omega)
    (fun i hi _ => fun he => hni (he ▸ List.get_mem input i hi))
  rw [hres]
  show ((input.drop 0).map HtmlToken.char, Outcome.finished) = _
  rw [List.drop_zero]

theorem c1_no_lt_char_tokens_witness :
    ('<' ∉ (['h', 'i'] : List Char)) ∧
      tokenize ['h', 'i'] = ([HtmlToken.char 'h', HtmlToken.char 'i'], Outcome.finished) :=
  ⟨by decide, c1_no_lt_char_tokens ['h', 'i'] (by decide)⟩

/-- C4: the public interface (`new` and iterated `next`) gives an external caller
no way to force the machine into `ScriptData`: in the source the `state` field is
private, no public setter exists, and no configuration reachable through the
public operations ever has state `ScriptData` — so a tree-construction consumer
cannot enter raw-text content mode, contrary to the claim. -/
theorem c4_scriptdata_unreachable : ∀ (input : List Char) (t : HtmlTokenizer),
    Reachable input t → t.state ≠ State.scriptData := by
  intro input t h hs
  have h2 := (reachable_spec h).2
  rw [hs] at h2
  exact absurd h2 (by simp [isScriptFamily])

theorem c4_scriptdata_unreachable_witness :
    (HtmlTokenizer.new ['a']).state ≠ State.scriptData :=
  c4_scriptdata_unreachable ['a'] (HtmlTokenizer.new ['a']) Reachable.init

/-- C9: a single call to `next` terminates on every input and configuration:
with fuel `8 * |input| + 13` the loop of `Iterator::next` never runs out,
because every iteration either returns a token, faults, or strictly decreases
`loopMeasure` (it consumes a character, or changes state in a rank-decreasing
way while the reconsume flag is armed). -/
theorem c9_next_terminates : ∀ t : HtmlTokenizer,
    nextLoop (8 * t.input.length + 13) t ≠ NextRes.outOfFuel ∧
      next t ≠ NextRes.outOfFuel := by
  intro t
  have hb : loopMeasure t < 8 * t.input.length + 13 := by
    have h1 := loopMeasure_reconsume_bound t
    unfold loopMeasure
    omega
  refine ⟨nextLoop_runs _ t hb, ?_⟩
  unfold next
  split_ifs
  · exact fun h => NextRes.noConfusion h
  · exact nextLoop_runs _ t hb

theorem c9_next_terminates_witness :
    nextLoop (8 * (HtmlTokenizer.new ['a']).input.length + 13) (HtmlTokenizer.new ['a']) ≠
        NextRes.outOfFuel ∧
      next (HtmlTokenizer.new ['a']) ≠ NextRes.outOfFuel :=
  c9_next_terminates (HtmlTokenizer.new ['a'])

/-- C10: from construction, every non-faulting `next` call preserves the
invariant that the cursor never exceeds the input length (and that the pending
token is never `Eof`); consequently `is_eof` (`pos > len`) never holds in a
reachable configuration and `next` never returns the `Eof` token; and a call
entered with `pos ≥ len` returns `None` (`exhausted`): exhaustion is signalled
to the consumer by `None`, not by an `Eof` token. -/
theorem c10_eof_invariants :
    (∀ input : List Char,
        (HtmlTokenizer.new input).pos ≤ (HtmlTokenizer.new input).input.length ∧
          (HtmlTokenizer.new input).latest_token ≠ some HtmlToken.eof ∧
          (HtmlTokenizer.new input).is_eof = false) ∧
      (∀ (t : HtmlTokenizer) (tk : HtmlToken) (t' : HtmlTokenizer),
        t.latest_token ≠ some HtmlToken.eof → next t = NextRes.tok tk t' →
          t'.pos ≤ t'.input.length ∧ t'.latest_token ≠ some HtmlToken.eof ∧
            t'.is_eof = false ∧ tk ≠ HtmlToken.eof) ∧
      (∀ t : HtmlTokenizer, t.input.length ≤ t.pos → next t = NextRes.exhausted) := by
  refine ⟨?_, ?_, ?_⟩
  · intro input
    refine ⟨Nat.zero_le _, by simp [HtmlTokenizer.new], ?_⟩
    simp [HtmlTokenizer.new, HtmlTokenizer.is_eof]
  · intro t tk t' hlat h
    obtain ⟨k1, k2, k3, -⟩ := next_tok_spec hlat h
    refine ⟨k1, k2, ?_, k3⟩
    unfold HtmlTokenizer.is_eof
    simp only [decide_eq_false_iff_not]
    omega
  · intro t hp
    exact next_exhausted hp

theorem c10_eof_invariants_witness :
    (⟨State.data, 1, false, none, ['a'], []⟩ : HtmlTokenizer).pos ≤
        (⟨State.data, 1, false, none, ['a'], []⟩ : HtmlTokenizer).input.length ∧
      (⟨State.data, 1, false, none, ['a'], []⟩ : HtmlTokenizer).latest_token ≠
        some HtmlToken.eof ∧
      (⟨State.data, 1, false, none, ['a'], []⟩ : HtmlTokenizer).is_eof = false ∧
      HtmlToken.char 'a' ≠ HtmlToken.eof :=
  c10_eof_invariants.2.1 (HtmlTokenizer.new ['a']) (HtmlToken.char 'a')
    ⟨State.data, 1, false, none, ['a'], []⟩ (by decide) (by decide)

end Saba
